import Mathlib

set_option maxHeartbeats 1000000

/-!
A verification development for rellic's structural-simplification passes:
the reachability-based if-chain refiner (ReachBasedRefine.cpp) and the
debug-info field renamer (StructFieldRenamer.cpp).

The refiner works over one compound statement: it copies the block's body
into a vector, scans for a maximal run of adjacent else-less if statements
whose conditions are pairwise exclusive (each new condition is proved
unreachable from the disjunction of the previously accepted ones) and
collectively exhaustive, chains them into one if/else-if ladder by setting
the else branches of the chain members in place, erases the statements
after the chain head from the copied body, and records the compound's
replacement in the substitution map.

Conditions are modelled as a deep boolean expression language over a single
integer program variable (the shape the solver sees after GetZ3Cond), and
the solver call Prove is modelled as an oracle parameter of type
ZExpr → Bool, since it is an external black box; soundness of the oracle
(everything it accepts is valid) is an explicit hypothesis where a claim
needs it.  Statement nodes carry a numeric id modelling clang node
identity, so that in-place mutation and node sharing are observable.
-/

/-- Boolean condition expressions over one integer program variable, as
handed to the solver by GetZ3Cond: equality and greater-or-equal
comparisons against constants, conjunction, disjunction, negation, and the
false literal that z3's mk_or yields for an empty vector. -/
inductive ZExpr where
  | falseE : ZExpr
  | eqC : Int → ZExpr
  | geC : Int → ZExpr
  | andE : ZExpr → ZExpr → ZExpr
  | orE : ZExpr → ZExpr → ZExpr
  | notE : ZExpr → ZExpr
  deriving DecidableEq

/-- Evaluation of a condition at an integer value of the program variable. -/
def ZExpr.eval : ZExpr → Int → Bool
  | .falseE, _ => false
  | .eqC k, x => x == k
  | .geC k, x => decide (k ≤ x)
  | .andE a b, x => a.eval x && b.eval x
  | .orE a b, x => a.eval x || b.eval x
  | .notE a, x => !(a.eval x)

/-- z3::mk_or over the accumulated condition vector: the empty vector gives
the false literal. -/
def mkOr (l : List ZExpr) : ZExpr := l.foldr ZExpr.orE ZExpr.falseE

/-- A sound solver: every formula the Prove call accepts is valid over the
integers. -/
def Sound (p : ZExpr → Bool) : Prop :=
  ∀ φ, p φ = true → ∀ x : Int, φ.eval x = true

/-- A solver sound for the unsigned interpretation: every formula it
accepts is valid over the non-negative integers. -/
def SoundN (p : ZExpr → Bool) : Prop :=
  ∀ φ, p φ = true → ∀ x : Int, 0 ≤ x → φ.eval x = true

/-- Statements of the recovered program, restricted to the shapes the
refiner inspects: if statements (condition, then branch, optional else
branch), compound statements, and an opaque non-if statement.  The id
field models clang node identity. -/
inductive Stmt where
  | ifStmt (id : Nat) (cond : ZExpr) (thenB : Stmt) (elseB : Option Stmt)
  | comp (id : Nat) (body : List Stmt)
  | skip (id : Nat)

/-- The scan loop of ReachBasedRefine::VisitCompoundStmt (lines 40-72):
walks the body copy from index i with the accumulated chain `ifs` and its
conditions `conds`; a non-if statement, an if with an else branch, or a
failed unreachability proof resets the chain; an accepted statement is
appended, and once the chain has more than two members whose disjunction is
proved, the loop stops at the fusion point (the C++ loop's done_something).
Returns the fusion index together with the chain and its conditions, or
none when the loop runs off the end of the body. -/
def scanChain (p : ZExpr → Bool) : List Stmt → Nat → List Stmt → List ZExpr →
    Option (Nat × List Stmt × List ZExpr)
  | [], _, _, _ => none
  | Stmt.ifStmt id c t none :: rest, i, ifs, conds =>
    if p (ZExpr.notE (ZExpr.andE c (mkOr conds))) then
      if decide ((ifs ++ [Stmt.ifStmt id c t none]).length ≤ 2) ||
          !(p (mkOr (conds ++ [c]))) then
        scanChain p rest (i + 1) (ifs ++ [Stmt.ifStmt id c t none]) (conds ++ [c])
      else some (i, ifs ++ [Stmt.ifStmt id c t none], conds ++ [c])
    else scanChain p rest (i + 1) [] []
  | Stmt.ifStmt _ _ _ (some _) :: rest, i, _, _ => scanChain p rest (i + 1) [] []
  | _ :: rest, i, _, _ => scanChain p rest (i + 1) [] []

/-- The statement left at the chain head after the setElse loop (lines
96-107): each chain member's else branch is set to the next member, except
that the last member's then branch becomes the else branch of the member
before it, exactly as the source's own post-state comment (lines 109-119)
records. -/
def fuseChain : List Stmt → Stmt
  | [] => Stmt.skip 0
  | [Stmt.ifStmt _ _ t _] => t
  | [s] => s
  | Stmt.ifStmt id c t _ :: s2 :: rest => Stmt.ifStmt id c t (some (fuseChain (s2 :: rest)))
  | s :: _ :: _ => s

/-- The in-place effect of the setElse loop on all the chain members: the
member at position k of the chain now roots the ladder of the members from
k on (the last member is untouched), matching the source comment at lines
109-119. -/
def chainMutations : List Stmt → List Stmt
  | [] => []
  | [s] => [s]
  | s :: s2 :: rest => fuseChain (s :: s2 :: rest) :: chainMutations (s2 :: rest)

/-- The else-if ladder exactly as the specification words it: given the
(id, condition, then-branch) triples of the chain members before the last
and the last member's then branch, build
if(c1){t1} else if(c2){t2} ... else {t_n}. -/
def elseLadder : List (Nat × ZExpr × Stmt) → Stmt → Stmt
  | [], tail => tail
  | (id, c, t) :: rest, tail => Stmt.ifStmt id c t (some (elseLadder rest tail))

/-- The (id, condition, then-branch) data of an if statement. -/
def ifData : Stmt → Nat × ZExpr × Stmt
  | Stmt.ifStmt id c t _ => (id, c, t)
  | s => (0, ZExpr.falseE, s)

/-- The then branch of an if statement (the statement itself otherwise). -/
def thenOf : Stmt → Stmt
  | Stmt.ifStmt _ _ t _ => t
  | s => s

/-- The body the refiner builds for the substitution: the chain head
(already carrying the whole ladder) stays at its position and the erase
pair at lines 129-132 removes the chain members after it; none when the
scan finds no complete chain. -/
def visitCompoundBody (p : ZExpr → Bool) (body : List Stmt) : Option (List Stmt) :=
  match scanChain p body 0 [] [] with
  | none => none
  | some (i, ifs, _) =>
      some (body.take (i + 1 - ifs.length) ++ [fuseChain ifs] ++ body.drop (i + 1))

/-- VisitCompoundStmt's recorded substitution: when the scan fused a chain,
the compound is mapped to a fresh compound node (ast.CreateCompoundStmt)
around the edited body; otherwise nothing is recorded. -/
def visitCompoundStmt (p : ZExpr → Bool) (freshId : Nat) : Stmt → Option Stmt
  | Stmt.comp _ body => Option.map (Stmt.comp freshId) (visitCompoundBody p body)
  | _ => none

/-- The original compound's body as it stands after the traversal callback
returns: the block's statement list itself is untouched, but when a fusion
happened the setElse loop has already rewritten the chain members in place
(the source comment at lines 109-119 shows this exact state). -/
def bodyAfterVisit (p : ZExpr → Bool) (body : List Stmt) : List Stmt :=
  match scanChain p body 0 [] [] with
  | none => body
  | some (i, ifs, _) =>
      body.take (i + 1 - ifs.length) ++ chainMutations ifs ++ body.drop (i + 1)

/-- The id at the root of a statement node. -/
def topId : Stmt → Nat
  | Stmt.ifStmt id _ _ _ => id
  | Stmt.comp id _ => id
  | Stmt.skip id => id

/-- Whether a statement is an if statement carrying an else branch. -/
def hasElse : Stmt → Bool
  | Stmt.ifStmt _ _ _ (some _) => true
  | _ => false

mutual

/-- The pass's preorder traversal (TraverseDecl with TransformVisitor):
every compound statement of the tree is visited and may contribute one
entry (original compound, edited body) to the substitution map. -/
def collectSubsts (p : ZExpr → Bool) : Stmt → List (Stmt × List Stmt)
  | Stmt.ifStmt _ _ t none => collectSubsts p t
  | Stmt.ifStmt _ _ t (some e) => collectSubsts p t ++ collectSubsts p e
  | Stmt.skip _ => []
  | Stmt.comp id body =>
      (match visitCompoundBody p body with
       | some nb => [(Stmt.comp id body, nb)]
       | none => []) ++ collectSubstsList p body

/-- Traversal over a statement list. -/
def collectSubstsList (p : ZExpr → Bool) : List Stmt → List (Stmt × List Stmt)
  | [] => []
  | s :: rest => collectSubsts p s ++ collectSubstsList p rest

end

/-- What one run of the scan guarantees at a fusion point, all read off the
loop's invariants: the chain and its condition list have equal length at
least three, the chain occupies the adjacent body positions ending at the
fusion index, every member is an else-less if statement whose condition is
the corresponding entry of the condition list, every condition was proved
unreachable from the disjunction of the conditions before it, and the
disjunction of the whole list was proved. -/
def ScanOut (p : ZExpr → Bool) (body : List Stmt) (j : Nat) (ifs : List Stmt)
    (conds : List ZExpr) : Prop :=
  ifs.length = conds.length ∧ 3 ≤ ifs.length ∧ ifs.length ≤ j + 1 ∧
  (∀ k, k < ifs.length →
    ∃ id c t, ifs[k]? = some (Stmt.ifStmt id c t none) ∧ conds[k]? = some c ∧
      body[j + 1 - ifs.length + k]? = some (Stmt.ifStmt id c t none)) ∧
  (∀ k (c : ZExpr), conds[k]? = some c →
    p (ZExpr.notE (ZExpr.andE c (mkOr (conds.take k)))) = true) ∧
  p (mkOr conds) = true

/-- StructFieldRenamer's outcome on one record declaration: a glog CHECK
failure aborts the whole pipeline; unguarded vector indexing past the end
of the debug-info element list is undefined behaviour; otherwise the new
field names. -/
inductive RenResult where
  | fatal : RenResult
  | outOfBounds : RenResult
  | ok : List String → RenResult
  deriving DecidableEq

/-- The renaming loop of StructFieldRenamer::VisitRecordDecl (lines 54-68):
walk the declared fields in order consuming the debug-info names in
lockstep; a name already seen gets the old field name appended after an
underscore, a fresh name is recorded in the seen set and used as is; none
models the out-of-bounds read of di_fields[i] when the debug-info list is
exhausted first. -/
def renameFields (seen : List String) : List String → List String → Option (List String)
  | [], _ => some []
  | _ :: _, [] => none
  | f :: fs, d :: ds =>
    if seen.contains d then
      Option.map (fun r => (d ++ "_" ++ f) :: r) (renameFields seen fs ds)
    else
      Option.map (fun r => d :: r) (renameFields (d :: seen) fs ds)

/-- StructFieldRenamer::VisitRecordDecl (lines 31-68): a record with no
entry in the declaration-to-type map trips CHECK and is fatal; a type with
no debug info is skipped with the fields unchanged; otherwise the fields
are renamed from the debug-info elements. -/
def visitRecordDecl (decls : Nat → Option Nat) (types : Nat → Option (List String))
    (declId : Nat) (fields : List String) : RenResult :=
  match decls declId with
  | none => RenResult.fatal
  | some ty =>
    match types ty with
    | none => RenResult.ok fields
    | some di =>
      match renameFields [] fields di with
      | none => RenResult.outOfBounds
      | some newNames => RenResult.ok newNames

/-- The first solver query of a scan over the example blocks: the head
condition x == 0 against the empty running disjunction. -/
def qA1 : ZExpr := ZExpr.notE (ZExpr.andE (ZExpr.eqC 0) ZExpr.falseE)

/-- The second query of the scan over the literal example block: x == 1
against the running disjunction of x == 0. -/
def qA2 : ZExpr := ZExpr.notE (ZExpr.andE (ZExpr.eqC 1) (ZExpr.orE (ZExpr.eqC 0) ZExpr.falseE))

/-- The third query of the scan over the literal example block: x >= 2
against the running disjunction of x == 0 and x == 1. -/
def qA3 : ZExpr :=
  ZExpr.notE (ZExpr.andE (ZExpr.geC 2)
    (ZExpr.orE (ZExpr.eqC 0) (ZExpr.orE (ZExpr.eqC 1) ZExpr.falseE)))

/-- The exhaustiveness query of the literal example block: the disjunction
of x == 0, x == 1 and x >= 2. -/
def qAor : ZExpr :=
  ZExpr.orE (ZExpr.eqC 0) (ZExpr.orE (ZExpr.eqC 1) (ZExpr.orE (ZExpr.geC 2) ZExpr.falseE))

/-- A concrete prover for the literal example block that accepts exactly
the four queries its scan raises; it is sound for the unsigned
interpretation of the program variable. -/
def pW (φ : ZExpr) : Bool :=
  decide (φ = qA1) || decide (φ = qA2) || decide (φ = qA3) || decide (φ = qAor)

/-- A concrete prover sound over the signed integers: it accepts exactly
the three mutual-exclusion queries of the literal example block, all of
which are valid over the integers, and nothing else — in particular not
the exhaustiveness query, which x = -1 falsifies. -/
def pSInt (φ : ZExpr) : Bool :=
  decide (φ = qA1) || decide (φ = qA2) || decide (φ = qA3)

/-- The specification's literal example block:
if(x==0){A} if(x==1){B} if(x>=2){C}. -/
def c4block : List Stmt :=
  [Stmt.ifStmt 1 (ZExpr.eqC 0) (Stmt.skip 11) none,
   Stmt.ifStmt 2 (ZExpr.eqC 1) (Stmt.skip 12) none,
   Stmt.ifStmt 3 (ZExpr.geC 2) (Stmt.skip 13) none]

/-- The fused form of the literal example block:
if(x==0){A} else if(x==1){B} else {C}. -/
def c4fused : Stmt :=
  Stmt.ifStmt 1 (ZExpr.eqC 0) (Stmt.skip 11)
    (some (Stmt.ifStmt 2 (ZExpr.eqC 1) (Stmt.skip 12) (some (Stmt.skip 13))))

/-- The specification's rejection example block:
if(x==0){A} if(x==0){B}, two identical non-exclusive conditions. -/
def c5block : List Stmt :=
  [Stmt.ifStmt 1 (ZExpr.eqC 0) (Stmt.skip 11) none,
   Stmt.ifStmt 2 (ZExpr.eqC 0) (Stmt.skip 12) none]

/-- The mutual-exclusion query the rejection example's second statement
raises: x == 0 against the running disjunction already holding x == 0.  It
is falsified at x = 0, so no sound prover accepts it. -/
def qDup : ZExpr :=
  ZExpr.notE (ZExpr.andE (ZExpr.eqC 0) (ZExpr.orE (ZExpr.eqC 0) ZExpr.falseE))

/-- A block holding two complete chains back to back: the literal example
chain twice (with distinct node ids). -/
def twoChain : List Stmt :=
  c4block ++
  [Stmt.ifStmt 4 (ZExpr.eqC 0) (Stmt.skip 14) none,
   Stmt.ifStmt 5 (ZExpr.eqC 1) (Stmt.skip 15) none,
   Stmt.ifStmt 6 (ZExpr.geC 2) (Stmt.skip 16) none]

/-- The fused form of the second chain of twoChain. -/
def c4fusedB : Stmt :=
  Stmt.ifStmt 4 (ZExpr.eqC 0) (Stmt.skip 14)
    (some (Stmt.ifStmt 5 (ZExpr.eqC 1) (Stmt.skip 15) (some (Stmt.skip 16))))

/-- What one invocation leaves of twoChain: the first chain fused, the
second untouched. -/
def partialTwo : List Stmt := c4fused :: twoChain.drop 3

/-- A chain of three conditions that really is exhaustive over the signed
integers: x == 0, x >= 1, x < 0. -/
def wBlock : List Stmt :=
  [Stmt.ifStmt 1 (ZExpr.eqC 0) (Stmt.skip 11) none,
   Stmt.ifStmt 2 (ZExpr.geC 1) (Stmt.skip 12) none,
   Stmt.ifStmt 3 (ZExpr.notE (ZExpr.geC 0)) (Stmt.skip 13) none]

/-- The fused form of wBlock. -/
def wFused : Stmt :=
  Stmt.ifStmt 1 (ZExpr.eqC 0) (Stmt.skip 11)
    (some (Stmt.ifStmt 2 (ZExpr.geC 1) (Stmt.skip 12) (some (Stmt.skip 13))))

/-- The four queries of the scan over wBlock. -/
def qB1 : ZExpr := ZExpr.notE (ZExpr.andE (ZExpr.eqC 0) ZExpr.falseE)

/-- Second wBlock query: x >= 1 against the disjunction of x == 0. -/
def qB2 : ZExpr := ZExpr.notE (ZExpr.andE (ZExpr.geC 1) (ZExpr.orE (ZExpr.eqC 0) ZExpr.falseE))

/-- Third wBlock query: x < 0 against the disjunction of x == 0, x >= 1. -/
def qB3 : ZExpr :=
  ZExpr.notE (ZExpr.andE (ZExpr.notE (ZExpr.geC 0))
    (ZExpr.orE (ZExpr.eqC 0) (ZExpr.orE (ZExpr.geC 1) ZExpr.falseE)))

/-- The exhaustiveness query of wBlock, valid over the signed integers. -/
def qBor : ZExpr :=
  ZExpr.orE (ZExpr.eqC 0)
    (ZExpr.orE (ZExpr.geC 1) (ZExpr.orE (ZExpr.notE (ZExpr.geC 0)) ZExpr.falseE))

/-- A concrete prover accepting exactly the four wBlock queries; all four
are valid over the signed integers, so it is sound. -/
def pZ (φ : ZExpr) : Bool :=
  decide (φ = qB1) || decide (φ = qB2) || decide (φ = qB3) || decide (φ = qBor)

/-- Evaluating the disjunction built by mkOr: true exactly when some
member evaluates to true. -/
theorem mkOr_eval (l : List ZExpr) (x : Int) :
    (mkOr l).eval x = l.any (fun c => c.eval x) := by
  induction l with
  | nil => rfl
  | cons c cs ih =>
    simp only [mkOr, List.foldr_cons, ZExpr.eval, List.any_cons]
    rw [show List.foldr ZExpr.orE ZExpr.falseE cs = mkOr cs from rfl, ih]

/-- The scan loop's invariant, proved by induction along the body suffix:
whenever the loop stops at a fusion point, the ScanOut facts hold for the
chain it returns. -/
theorem scanChain_some_spec (p : ZExpr → Bool) (body : List Stmt) :
    ∀ (rest : List Stmt) (i : Nat) (ifs : List Stmt) (conds : List ZExpr)
      (j : Nat) (ifs' : List Stmt) (conds' : List ZExpr),
      (∀ k, rest[k]? = body[i + k]?) →
      ifs.length = conds.length →
      ifs.length ≤ i →
      (∀ k, k < ifs.length →
        ∃ id c t, ifs[k]? = some (Stmt.ifStmt id c t none) ∧ conds[k]? = some c ∧
          body[i - ifs.length + k]? = some (Stmt.ifStmt id c t none)) →
      (∀ k (c : ZExpr), conds[k]? = some c →
        p (ZExpr.notE (ZExpr.andE c (mkOr (conds.take k)))) = true) →
      scanChain p rest i ifs conds = some (j, ifs', conds') →
      ScanOut p body j ifs' conds' := by
  intro rest
  induction rest with
  | nil =>
    intro i ifs conds j ifs' conds' _ _ _ _ _ hscan
    simp [scanChain] at hscan
  | cons s rest ih =>
    intro i ifs conds j ifs' conds' hrest hlen hle hchain hexcl hscan
    have hrest' : ∀ k, rest[k]? = body[i + 1 + k]? := by
      intro k
      have h := hrest (k + 1)
      rw [List.getElem?_cons_succ] at h
      rw [h]
      congr 1
      omega
    have hreset : scanChain p rest (i + 1) [] [] = some (j, ifs', conds') →
        ScanOut p body j ifs' conds' := by
      intro h
      exact ih (i + 1) [] [] j ifs' conds' hrest' rfl (by simp)
        (by intro k hk; simp at hk) (by intro k c h0; simp at h0) h
    cases s with
    | skip id =>
      simp only [scanChain] at hscan
      exact hreset hscan
    | comp id b =>
      simp only [scanChain] at hscan
      exact hreset hscan
    | ifStmt id c t e =>
      cases e with
      | some e0 =>
        simp only [scanChain] at hscan
        exact hreset hscan
      | none =>
        simp only [scanChain] at hscan
        by_cases h1 : p (ZExpr.notE (ZExpr.andE c (mkOr conds))) = true
        · rw [if_pos h1] at hscan
          have hhead : body[i]? = some (Stmt.ifStmt id c t none) := by
            have h := (hrest 0).symm
            simpa using h
          have hlen1 : (ifs ++ [Stmt.ifStmt id c t none]).length = (conds ++ [c]).length := by
            simp [hlen]
          have hle1 : (ifs ++ [Stmt.ifStmt id c t none]).length ≤ i + 1 := by
            simp
            omega
          have hchain1 : ∀ k, k < (ifs ++ [Stmt.ifStmt id c t none]).length →
              ∃ id' c' t',
                (ifs ++ [Stmt.ifStmt id c t none])[k]? = some (Stmt.ifStmt id' c' t' none) ∧
                (conds ++ [c])[k]? = some c' ∧
                body[(i + 1) - (ifs ++ [Stmt.ifStmt id c t none]).length + k]? =
                  some (Stmt.ifStmt id' c' t' none) := by
            intro k hk
            have hidx : (i + 1) - (ifs ++ [Stmt.ifStmt id c t none]).length + k =
                i - ifs.length + k := by
              simp only [List.length_append, List.length_cons, List.length_nil]
              omega
            rw [hidx]
            simp only [List.length_append, List.length_cons, List.length_nil] at hk
            rcases Nat.lt_or_ge k ifs.length with hk' | hk'
            · obtain ⟨id', c', t', hA, hB, hC⟩ := hchain k hk'
              refine ⟨id', c', t', ?_, ?_, hC⟩
              · rw [List.getElem?_append_left hk']
                exact hA
              · rw [List.getElem?_append_left (hlen ▸ hk')]
                exact hB
            · have hk0 : k = ifs.length := by omega
              subst hk0
              refine ⟨id, c, t, ?_, ?_, ?_⟩
              · rw [List.getElem?_concat_length]
              · rw [hlen, List.getElem?_concat_length]
              · have : i - ifs.length + ifs.length = i := by omega
                rw [this]
                exact hhead
          have hexcl1 : ∀ k (c' : ZExpr), (conds ++ [c])[k]? = some c' →
              p (ZExpr.notE (ZExpr.andE c' (mkOr ((conds ++ [c]).take k)))) = true := by
            intro k c' hkc
            rcases Nat.lt_trichotomy k conds.length with hk | hk | hk
            · rw [List.getElem?_append_left hk] at hkc
              rw [List.take_append_of_le_length (Nat.le_of_lt hk)]
              exact hexcl k c' hkc
            · subst hk
              rw [List.getElem?_concat_length] at hkc
              obtain rfl : c = c' := by
                exact Option.some.inj hkc
              rw [List.take_left]
              exact h1
            · rw [List.getElem?_len_le
                (by simp only [List.length_append, List.length_cons, List.length_nil]; omega)] at hkc
              cases hkc
          cases hsz : decide ((ifs ++ [Stmt.ifStmt id c t none]).length ≤ 2) with
          | true =>
            rw [if_pos (show (decide ((ifs ++ [Stmt.ifStmt id c t none]).length ≤ 2) ||
                !(p (mkOr (conds ++ [c])))) = true by rw [hsz]; rfl)] at hscan
            exact ih (i + 1) (ifs ++ [Stmt.ifStmt id c t none]) (conds ++ [c])
              j ifs' conds' hrest' hlen1 hle1 hchain1 hexcl1 hscan
          | false =>
            cases hcm : p (mkOr (conds ++ [c])) with
            | false =>
              rw [if_pos (show (decide ((ifs ++ [Stmt.ifStmt id c t none]).length ≤ 2) ||
                  !(p (mkOr (conds ++ [c])))) = true by rw [hsz, hcm]; rfl)] at hscan
              exact ih (i + 1) (ifs ++ [Stmt.ifStmt id c t none]) (conds ++ [c])
                j ifs' conds' hrest' hlen1 hle1 hchain1 hexcl1 hscan
            | true =>
              rw [if_neg (show ¬((decide ((ifs ++ [Stmt.ifStmt id c t none]).length ≤ 2) ||
                  !(p (mkOr (conds ++ [c])))) = true) by rw [hsz, hcm]; simp)] at hscan
              simp only [Option.some.injEq, Prod.mk.injEq] at hscan
              obtain ⟨rfl, rfl, rfl⟩ := hscan
              have hbig : 2 < (ifs ++ [Stmt.ifStmt id c t none]).length := by
                have h3 := of_decide_eq_false hsz
                omega
              exact ⟨hlen1, hbig, hle1, hchain1, hexcl1, hcm⟩
        · rw [if_neg h1] at hscan
          exact hreset hscan

/-- Unpacking a successful refiner run on a block: the scan stopped at a
fusion point whose ScanOut facts hold, and the recorded body keeps the
prefix before the chain, puts the fused ladder at the chain head's
position, and keeps the suffix after the fusion index. -/
theorem visitCompoundBody_eq (p : ZExpr → Bool) (body nb : List Stmt)
    (h : visitCompoundBody p body = some nb) :
    ∃ i ifs conds, scanChain p body 0 [] [] = some (i, ifs, conds) ∧
      ScanOut p body i ifs conds ∧
      nb = body.take (i + 1 - ifs.length) ++ [fuseChain ifs] ++ body.drop (i + 1) := by
  unfold visitCompoundBody at h
  cases hscan : scanChain p body 0 [] [] with
  | none => rw [hscan] at h; cases h
  | some v =>
    obtain ⟨i, ifs, conds⟩ := v
    rw [hscan] at h
    have hout : ScanOut p body i ifs conds := by
      refine scanChain_some_spec p body body 0 [] [] i ifs conds ?_ rfl (by simp) ?_ ?_ hscan
      · intro k; rw [Nat.zero_add]
      · intro k hk; simp at hk
      · intro k c h0; simp at h0
    exact ⟨i, ifs, conds, rfl, hout, (Option.some.inj h).symm⟩

/-- The fusion index lies inside the body. -/
theorem scanOut_lt (p : ZExpr → Bool) (body : List Stmt) (j : Nat) (ifs : List Stmt)
    (conds : List ZExpr) (h : ScanOut p body j ifs conds) : j < body.length := by
  obtain ⟨hlen, h3, hle, hchain, _, _⟩ := h
  obtain ⟨id, c, t, _, _, hb⟩ := hchain (ifs.length - 1) (by omega)
  have hidx : j + 1 - ifs.length + (ifs.length - 1) = j := by omega
  rw [hidx] at hb
  obtain ⟨hlt, _⟩ := List.getElem?_eq_some.mp hb
  exact hlt

/-- The chain head keeps its place when the ladder is built: fuseChain on a
chain of two or more if statements equals the specification's else-if
ladder over the data of all members but the last, with the last member's
then branch as the trailing else body. -/
theorem fuseChain_ladder : ∀ (l : List Stmt) (lst : Stmt),
    (∀ s ∈ l, ∃ id c t, s = Stmt.ifStmt id c t none) →
    l.getLast? = some lst → 2 ≤ l.length →
    fuseChain l = elseLadder (l.dropLast.map ifData) (thenOf lst) := by
  intro l
  induction l with
  | nil => intro lst _ h _; cases h
  | cons s l ih =>
    intro lst hall hlast hlen
    cases l with
    | nil => simp at hlen
    | cons s2 l2 =>
      obtain ⟨id, c, t, rfl⟩ := hall s (by simp)
      rw [show fuseChain (Stmt.ifStmt id c t none :: s2 :: l2) =
        Stmt.ifStmt id c t (some (fuseChain (s2 :: l2))) from rfl]
      have hlast2 : (s2 :: l2).getLast? = some lst := by
        rw [List.getLast?_cons_cons] at hlast
        exact hlast
      cases l2 with
      | nil =>
        obtain ⟨id2, c2, t2, rfl⟩ := hall s2 (by simp)
        have hl : lst = Stmt.ifStmt id2 c2 t2 none := by
          simpa using hlast2.symm
        subst hl
        rfl
      | cons s3 l3 =>
        rw [ih lst (fun u hu => hall u (by simp [hu])) hlast2 (by simp)]
        rw [List.dropLast_cons₂]
        rfl

/-- The in-place rewrite never changes the number of statements a chain
holds. -/
theorem chainMutations_length : ∀ l : List Stmt, (chainMutations l).length = l.length := by
  intro l
  induction l with
  | nil => rfl
  | cons s l ih =>
    cases l with
    | nil => rfl
    | cons s2 l2 =>
      rw [show chainMutations (s :: s2 :: l2) =
        fuseChain (s :: s2 :: l2) :: chainMutations (s2 :: l2) from rfl]
      simp [ih]

/-- The in-place rewrite touches only the else branch of a chain member:
the member's id, condition and then branch survive at its position. -/
theorem chainMutations_get : ∀ (l : List Stmt) (k : Nat) (id : Nat) (c : ZExpr) (t : Stmt),
    l[k]? = some (Stmt.ifStmt id c t none) →
    ∃ e2, (chainMutations l)[k]? = some (Stmt.ifStmt id c t e2) := by
  intro l
  induction l with
  | nil => intro k id c t h; simp at h
  | cons s l ih =>
    intro k id c t h
    cases l with
    | nil =>
      cases k with
      | zero =>
        rw [List.getElem?_cons_zero] at h
        obtain rfl := Option.some.inj h
        exact ⟨none, rfl⟩
      | succ k => simp at h
    | cons s2 l2 =>
      cases k with
      | zero =>
        rw [List.getElem?_cons_zero] at h
        obtain rfl := Option.some.inj h
        rw [show chainMutations (Stmt.ifStmt id c t none :: s2 :: l2) =
          fuseChain (Stmt.ifStmt id c t none :: s2 :: l2) :: chainMutations (s2 :: l2) from rfl]
        rw [List.getElem?_cons_zero]
        exact ⟨some (fuseChain (s2 :: l2)), rfl⟩
      | succ k =>
        rw [List.getElem?_cons_succ] at h
        rw [show chainMutations (s :: s2 :: l2) =
          fuseChain (s :: s2 :: l2) :: chainMutations (s2 :: l2) from rfl]
        rw [List.getElem?_cons_succ]
        exact ih k id c t h

/-- The wBlock prover accepts only formulas valid over the signed
integers. -/
theorem pZ_sound : Sound pZ := by
  intro φ h x
  simp only [pZ, Bool.or_eq_true, decide_eq_true_eq] at h
  rcases h with ((h | h) | h) | h <;> subst h <;>
    simp [qB1, qB2, qB3, qBor, ZExpr.eval] <;> omega

/-- The three mutual-exclusion queries of the literal example block are
valid over the signed integers, so the prover accepting exactly them is
sound. -/
theorem pSInt_sound : Sound pSInt := by
  intro φ h x
  simp only [pSInt, Bool.or_eq_true, decide_eq_true_eq] at h
  rcases h with (h | h) | h <;> subst h <;>
    simp [qA1, qA2, qA3, ZExpr.eval] <;> omega

/-- All four queries of the literal example block are valid over the
non-negative integers, so pW is sound for the unsigned interpretation. -/
theorem pW_soundN : SoundN pW := by
  intro φ h x hx
  simp only [pW, Bool.or_eq_true, decide_eq_true_eq] at h
  rcases h with ((h | h) | h) | h <;> subst h <;>
    simp [qA1, qA2, qA3, qAor, ZExpr.eval] <;> omega

/-- Membership in an appended list, at the Bool level of List.contains. -/
theorem contains_append_str (l1 l2 : List String) (a : String) :
    (l1 ++ l2).contains a = (l1.contains a || l2.contains a) := by
  simp [List.contains_eq_any_beq, List.any_append]

/-- String boolean equality agrees with decidable equality. -/
theorem beq_decide_str (a b : String) : (a == b) = decide (a = b) := by
  cases hx : a == b with
  | true => rw [(decide_eq_true_eq).mpr (beq_iff_eq.mp hx)]
  | false =>
    have hne : ¬(a = b) := fun h => by rw [beq_iff_eq.mpr h] at hx; cases hx
    rw [decide_eq_false hne]

/-- Membership in a cons, at the Bool level of List.contains. -/
theorem contains_cons_str (d a : String) (l : List String) :
    (d :: l).contains a = ((a == d) || l.contains a) := by
  simp [List.contains_eq_any_beq, List.any_cons, beq_decide_str]

/-- The renaming loop, characterised: it runs off the end of the debug-info
list exactly when that list is shorter than the field list, and otherwise
the k-th new name comes from the k-th debug-info name, suffixed with the
old field name exactly when that debug-info name already occurred among the
names consumed before it.  The seen set is tracked up to membership by the
list pref of names consumed so far. -/
theorem renameFields_spec : ∀ (fields di seen pref : List String),
    (∀ x : String, seen.contains x = pref.contains x) →
    (di.length < fields.length → renameFields seen fields di = none) ∧
    (fields.length ≤ di.length → ∃ r, renameFields seen fields di = some r ∧
      r.length = fields.length ∧
      ∀ k, k < fields.length → ∃ f d, fields[k]? = some f ∧ di[k]? = some d ∧
        r[k]? = some (if (pref ++ di.take k).contains d then d ++ "_" ++ f else d)) := by
  intro fields
  induction fields with
  | nil =>
    intro di seen pref _
    constructor
    · intro h; simp at h
    · intro _
      exact ⟨[], rfl, rfl, by intro k hk; simp at hk⟩
  | cons f fs ih =>
    intro di seen pref hinv
    cases di with
    | nil =>
      constructor
      · intro _; rfl
      · intro h; simp at h
    | cons d ds =>
      cases hc : seen.contains d with
      | true =>
        have hinv' : ∀ x : String, seen.contains x = (pref ++ [d]).contains x := by
          intro x
          rw [contains_append_str, ← hinv x, contains_cons_str]
          cases hx : x == d with
          | true =>
            obtain rfl := beq_iff_eq.mp hx
            rw [hc]
            rfl
          | false => simp [List.contains_eq_any_beq]
        have ihd := ih ds seen (pref ++ [d]) hinv'
        constructor
        · intro hlt
          rw [show renameFields seen (f :: fs) (d :: ds) =
            (if seen.contains d then
              Option.map (fun r => (d ++ "_" ++ f) :: r) (renameFields seen fs ds)
            else Option.map (fun r => d :: r) (renameFields (d :: seen) fs ds)) from rfl]
          rw [if_pos hc]
          rw [ihd.1 (by simp at hlt ⊢; omega)]
          rfl
        · intro hle
          obtain ⟨r, hr, hrlen, hrk⟩ := ihd.2 (by simp at hle ⊢; omega)
          refine ⟨(d ++ "_" ++ f) :: r, ?_, by simp [hrlen], ?_⟩
          · rw [show renameFields seen (f :: fs) (d :: ds) =
              (if seen.contains d then
                Option.map (fun r => (d ++ "_" ++ f) :: r) (renameFields seen fs ds)
              else Option.map (fun r => d :: r) (renameFields (d :: seen) fs ds)) from rfl]
            rw [if_pos hc, hr]
            rfl
          · intro k hk
            cases k with
            | zero =>
              refine ⟨f, d, List.getElem?_cons_zero, List.getElem?_cons_zero, ?_⟩
              rw [List.take_zero, List.append_nil, if_pos (by rw [← hinv d]; exact hc)]
              exact List.getElem?_cons_zero
            | succ k =>
              simp only [List.length_cons] at hk
              obtain ⟨f', d', h1, h2, h3⟩ := hrk k (by omega)
              refine ⟨f', d', by rw [List.getElem?_cons_succ]; exact h1,
                by rw [List.getElem?_cons_succ]; exact h2, ?_⟩
              rw [List.getElem?_cons_succ, h3, List.take_succ_cons,
                show pref ++ d :: List.take k ds = pref ++ [d] ++ List.take k ds by
                  rw [List.append_assoc, List.singleton_append]]
      | false =>
        have hinv' : ∀ x : String, (d :: seen).contains x = (pref ++ [d]).contains x := by
          intro x
          rw [contains_append_str, ← hinv x, contains_cons_str]
          rw [show (([d] : List String).contains x) = (x == d) by
            simp [List.contains_eq_any_beq, beq_decide_str]]
          rw [Bool.or_comm]
        have ihd := ih ds (d :: seen) (pref ++ [d]) hinv'
        constructor
        · intro hlt
          rw [show renameFields seen (f :: fs) (d :: ds) =
            (if seen.contains d then
              Option.map (fun r => (d ++ "_" ++ f) :: r) (renameFields seen fs ds)
            else Option.map (fun r => d :: r) (renameFields (d :: seen) fs ds)) from rfl]
          rw [if_neg (by rw [hc]; simp)]
          rw [ihd.1 (by simp at hlt ⊢; omega)]
          rfl
        · intro hle
          obtain ⟨r, hr, hrlen, hrk⟩ := ihd.2 (by simp at hle ⊢; omega)
          refine ⟨d :: r, ?_, by simp [hrlen], ?_⟩
          · rw [show renameFields seen (f :: fs) (d :: ds) =
              (if seen.contains d then
                Option.map (fun r => (d ++ "_" ++ f) :: r) (renameFields seen fs ds)
              else Option.map (fun r => d :: r) (renameFields (d :: seen) fs ds)) from rfl]
            rw [if_neg (by rw [hc]; simp), hr]
            rfl
          · intro k hk
            cases k with
            | zero =>
              refine ⟨f, d, List.getElem?_cons_zero, List.getElem?_cons_zero, ?_⟩
              rw [List.take_zero, List.append_nil, if_neg (by rw [← hinv d, hc]; simp)]
              exact List.getElem?_cons_zero
            | succ k =>
              simp only [List.length_cons] at hk
              obtain ⟨f', d', h1, h2, h3⟩ := hrk k (by omega)
              refine ⟨f', d', by rw [List.getElem?_cons_succ]; exact h1,
                by rw [List.getElem?_cons_succ]; exact h2, ?_⟩
              rw [List.getElem?_cons_succ, h3, List.take_succ_cons,
                show pref ++ d :: List.take k ds = pref ++ [d] ++ List.take k ds by
                  rw [List.append_assoc, List.singleton_append]]

/-- C1: whenever the refiner fuses a complete chain in a compound
statement, the replacement block it records holds, at the chain's first
position, the single nested statement if(c1){t1} else if(c2){t2} ... else
{t_n} in which the last member's then branch becomes the trailing else
body; the chain members after the first are removed from the block, and
every statement outside the chain is preserved unchanged and in its
original order. -/
theorem reach_fusion_replacement_structure (p : ZExpr → Bool) (fid cid : Nat)
    (body : List Stmt) (r : Stmt)
    (h : visitCompoundStmt p fid (Stmt.comp cid body) = some r) :
    ∃ i ifs conds lastIf,
      scanChain p body 0 [] [] = some (i, ifs, conds) ∧
      3 ≤ ifs.length ∧ ifs.length ≤ i + 1 ∧ i < body.length ∧
      (∀ k, k < ifs.length → ifs[k]? = body[i + 1 - ifs.length + k]?) ∧
      (∀ k, k < ifs.length → ∃ id c t, ifs[k]? = some (Stmt.ifStmt id c t none)) ∧
      ifs.getLast? = some lastIf ∧
      r = Stmt.comp fid (body.take (i + 1 - ifs.length) ++
            [elseLadder (ifs.dropLast.map ifData) (thenOf lastIf)] ++
            body.drop (i + 1)) := by
  rw [show visitCompoundStmt p fid (Stmt.comp cid body) =
    Option.map (Stmt.comp fid) (visitCompoundBody p body) from rfl] at h
  cases hb : visitCompoundBody p body with
  | none => rw [hb] at h; cases h
  | some nb =>
    rw [hb] at h
    obtain rfl : Stmt.comp fid nb = r := Option.some.inj h
    obtain ⟨i, ifs, conds, hscan, hout, hnb⟩ := visitCompoundBody_eq p body nb hb
    obtain ⟨hlen, h3, hle, hchain, hexcl, hor⟩ := hout
    have hlt : i < body.length :=
      scanOut_lt p body i ifs conds ⟨hlen, h3, hle, hchain, hexcl, hor⟩
    obtain ⟨lid, lc, lt, hlA, _, _⟩ := hchain (ifs.length - 1) (by omega)
    have hlast : ifs.getLast? = some (Stmt.ifStmt lid lc lt none) := by
      rw [List.getLast?_eq_getElem?]
      exact hlA
    have hall : ∀ s ∈ ifs, ∃ id c t, s = Stmt.ifStmt id c t none := by
      intro s hs
      obtain ⟨k, hk⟩ := List.mem_iff_getElem?.mp hs
      have hklt : k < ifs.length := by
        by_contra hge
        rw [List.getElem?_len_le (by omega)] at hk
        cases hk
      obtain ⟨id, c, t, hA, _, _⟩ := hchain k hklt
      rw [hA] at hk
      exact ⟨id, c, t, (Option.some.inj hk).symm⟩
    have hfuse : fuseChain ifs =
        elseLadder (ifs.dropLast.map ifData) (thenOf (Stmt.ifStmt lid lc lt none)) :=
      fuseChain_ladder ifs (Stmt.ifStmt lid lc lt none) hall hlast (by omega)
    refine ⟨i, ifs, conds, Stmt.ifStmt lid lc lt none, hscan, h3, hle, hlt, ?_, ?_, hlast, ?_⟩
    · intro k hk
      obtain ⟨id, c, t, hA, _, hC⟩ := hchain k hk
      rw [hA, hC]
    · intro k hk
      obtain ⟨id, c, t, hA, _, _⟩ := hchain k hk
      exact ⟨id, c, t, hA⟩
    · rw [hnb, hfuse]

/-- C1 witness: the literal example block fuses, and the recorded
replacement is exactly the take/ladder/drop decomposition. -/
theorem reach_fusion_replacement_structure_w :
    ∃ i ifs conds lastIf,
      scanChain pW c4block 0 [] [] = some (i, ifs, conds) ∧
      3 ≤ ifs.length ∧ ifs.length ≤ i + 1 ∧ i < c4block.length ∧
      (∀ k, k < ifs.length → ifs[k]? = c4block[i + 1 - ifs.length + k]?) ∧
      (∀ k, k < ifs.length → ∃ id c t, ifs[k]? = some (Stmt.ifStmt id c t none)) ∧
      ifs.getLast? = some lastIf ∧
      Stmt.comp 99 [c4fused] = Stmt.comp 99 (c4block.take (i + 1 - ifs.length) ++
        [elseLadder (ifs.dropLast.map ifData) (thenOf lastIf)] ++
        c4block.drop (i + 1)) :=
  reach_fusion_replacement_structure pW 99 0 c4block (Stmt.comp 99 [c4fused]) rfl

/-- C2: for every fusion performed by a refiner whose prover is sound, the
disjunction of the chain's conditions is valid (it was proved a tautology)
and every pair of chain conditions is unsatisfiable together, the latter
because each accepted condition was proved exclusive with the running
disjunction of the conditions accepted before it. -/
theorem reach_fusion_tautology_and_exclusion (p : ZExpr → Bool) (body nb : List Stmt)
    (hs : Sound p) (h : visitCompoundBody p body = some nb) :
    ∃ i ifs conds, scanChain p body 0 [] [] = some (i, ifs, conds) ∧
      ifs.length = conds.length ∧
      (∀ x : Int, (mkOr conds).eval x = true) ∧
      (∀ (ka kb : Nat) (a b : ZExpr), ka < kb → conds[ka]? = some a → conds[kb]? = some b →
        ∀ x : Int, ¬(a.eval x = true ∧ b.eval x = true)) := by
  obtain ⟨i, ifs, conds, hscan, hout, _⟩ := visitCompoundBody_eq p body nb h
  obtain ⟨hlen, h3, hle, hchain, hexcl, hor⟩ := hout
  refine ⟨i, ifs, conds, hscan, hlen, fun x => hs _ hor x, ?_⟩
  rintro ka kb a b hab ha hb x ⟨hax, hbx⟩
  have hv := hs _ (hexcl kb b hb) x
  rw [show (ZExpr.notE (ZExpr.andE b (mkOr (conds.take kb)))).eval x =
    !(b.eval x && (mkOr (conds.take kb)).eval x) from rfl] at hv
  have hmem : a ∈ conds.take kb :=
    List.mem_iff_getElem?.mpr ⟨ka, by rw [List.getElem?_take_of_lt hab]; exact ha⟩
  have hany : (conds.take kb).any (fun c => c.eval x) = true :=
    List.any_eq_true.mpr ⟨a, hmem, hax⟩
  rw [mkOr_eval, hany, hbx] at hv
  simp at hv

/-- C2 witness: a really exhaustive chain over the signed integers, fused
under the sound prover pZ. -/
theorem reach_fusion_tautology_and_exclusion_w :
    Sound pZ ∧
    (∃ i ifs conds, scanChain pZ wBlock 0 [] [] = some (i, ifs, conds) ∧
      ifs.length = conds.length ∧
      (∀ x : Int, (mkOr conds).eval x = true) ∧
      (∀ (ka kb : Nat) (a b : ZExpr), ka < kb → conds[ka]? = some a → conds[kb]? = some b →
        ∀ x : Int, ¬(a.eval x = true ∧ b.eval x = true))) :=
  ⟨pZ_sound, reach_fusion_tautology_and_exclusion pZ wBlock [wFused] pZ_sound rfl⟩

/-- C3: a substitution is recorded for a block only when the accumulated
chain has more than two members and the disjunction of its conditions was
proved; in particular a chain of one or two members never triggers a
fusion. -/
theorem reach_min_chain_and_tautology (p : ZExpr → Bool) (body nb : List Stmt)
    (h : visitCompoundBody p body = some nb) :
    ∃ i ifs conds, scanChain p body 0 [] [] = some (i, ifs, conds) ∧
      2 < ifs.length ∧ p (mkOr conds) = true := by
  obtain ⟨i, ifs, conds, hscan, hout, _⟩ := visitCompoundBody_eq p body nb h
  exact ⟨i, ifs, conds, hscan, hout.2.1, hout.2.2.2.2.2⟩

/-- C3 witness: the literal example block's fusion carries a three-member
chain whose disjunction the prover accepted. -/
theorem reach_min_chain_and_tautology_w :
    ∃ i ifs conds, scanChain pW c4block 0 [] [] = some (i, ifs, conds) ∧
      2 < ifs.length ∧ pW (mkOr conds) = true :=
  reach_min_chain_and_tautology pW c4block [c4fused] rfl

/-- C4 counterexample: over the signed integers the disjunction
(x==0) v (x==1) v (x>=2) is not a tautology (x = -1 falsifies it), and a
prover sound over the integers — even one accepting every valid
mutual-exclusion query this block raises — leaves the literal example
block unfused: no substitution is recorded. -/
theorem reach_c4_signed_no_fusion_cex :
    Sound pSInt ∧ visitCompoundBody pSInt c4block = none ∧
    ZExpr.eval (mkOr [ZExpr.eqC 0, ZExpr.eqC 1, ZExpr.geC 2]) (-1) = false :=
  ⟨pSInt_sound, rfl, rfl⟩

/-- C4 as amended: for an unsigned integer variable the fusion does go
through — the prover pW accepts the three exclusion queries and the
disjunction, it is sound for the unsigned interpretation, the refiner
rewrites the block into if(x==0){A} else if(x==1){B} else {C}, and the
disjunction really is a tautology over the non-negative integers. -/
theorem reach_c4_unsigned_fusion :
    SoundN pW ∧ visitCompoundBody pW c4block = some [c4fused] ∧
    (∀ x : Int, 0 ≤ x →
      (mkOr [ZExpr.eqC 0, ZExpr.eqC 1, ZExpr.geC 2]).eval x = true) :=
  ⟨pW_soundN, rfl, by intro x hx; simp [mkOr, ZExpr.eval]; omega⟩

/-- C5: on the rejection example block with two identical conditions, any
refiner run with a sound prover records no substitution: the
mutual-exclusion query for the second statement is falsified at x = 0, so
a sound prover rejects it and the chain resets before reaching three
members. -/
theorem reach_identical_conds_no_subst (p : ZExpr → Bool) (hs : Sound p) :
    visitCompoundBody p c5block = none := by
  have hdup : p qDup = false := by
    cases hq : p qDup with
    | false => rfl
    | true => exact absurd (hs qDup hq 0) (by decide)
  simp only [qDup] at hdup
  have hscan : scanChain p c5block 0 [] [] = none := by
    cases h1 : p (ZExpr.notE (ZExpr.andE (ZExpr.eqC 0) ZExpr.falseE)) with
    | true => simp [c5block, scanChain, mkOr, h1, hdup]
    | false => simp [c5block, scanChain, mkOr, h1]
  unfold visitCompoundBody
  rw [hscan]

/-- C5 witness: the never-proving prover is sound, and under it the
rejection example block is left alone. -/
theorem reach_identical_conds_no_subst_w :
    Sound (fun _ => false) ∧ visitCompoundBody (fun _ => false) c5block = none := by
  have hs : Sound (fun _ => false) := by
    intro φ h
    exact absurd h (by simp)
  exact ⟨hs, reach_identical_conds_no_subst (fun _ => false) hs⟩

/-- C6 counterexample: the traversal callback does mutate the original
tree.  On the literal example block the setElse loop gives the first two
chain members else branches while the block is being visited, so the
original body is not structurally identical after the traversal. -/
theorem reach_traversal_mutates_cex :
    (bodyAfterVisit pW c4block).map hasElse = [true, true, false] ∧
    c4block.map hasElse = [false, false, false] ∧
    bodyAfterVisit pW c4block ≠ c4block := by
  refine ⟨rfl, rfl, ?_⟩
  intro hEq
  have h2 : ([true, true, false] : List Bool) = [false, false, false] :=
    congrArg (List.map hasElse) hEq
  exact absurd h2 (by decide)

/-- C6 as amended: block-level edits are deferred to the substitution map
(the statement list of the block keeps its length and, outside the chain,
its entries), but the chained if statements themselves are rewritten in
place during the traversal: any position that changes held an else-less if
statement and still holds an if statement with the same id, condition and
then branch — only its else branch was set. -/
theorem reach_traversal_mutation_scope (p : ZExpr → Bool) (body : List Stmt) :
    (bodyAfterVisit p body).length = body.length ∧
    ∀ k : Nat, (bodyAfterVisit p body)[k]? = body[k]? ∨
      ∃ id c t els, body[k]? = some (Stmt.ifStmt id c t none) ∧
        (bodyAfterVisit p body)[k]? = some (Stmt.ifStmt id c t els) := by
  unfold bodyAfterVisit
  cases hscan : scanChain p body 0 [] [] with
  | none => exact ⟨rfl, fun k => Or.inl rfl⟩
  | some v =>
    obtain ⟨i, ifs, conds⟩ := v
    have hout : ScanOut p body i ifs conds := by
      refine scanChain_some_spec p body body 0 [] [] i ifs conds ?_ rfl (by simp) ?_ ?_ hscan
      · intro k; rw [Nat.zero_add]
      · intro k hk; simp at hk
      · intro k c h0; simp at h0
    obtain ⟨hlen, h3, hle, hchain, hexcl, hor⟩ := hout
    have hlt : i < body.length :=
      scanOut_lt p body i ifs conds ⟨hlen, h3, hle, hchain, hexcl, hor⟩
    have htake : (body.take (i + 1 - ifs.length)).length = i + 1 - ifs.length := by
      rw [List.length_take]
      omega
    have hcm : (chainMutations ifs).length = ifs.length := chainMutations_length ifs
    constructor
    · rw [List.length_append, List.length_append, htake, hcm, List.length_drop]
      omega
    · intro k
      rcases Nat.lt_or_ge k (i + 1 - ifs.length) with hk | hk
      · left
        rw [List.getElem?_append_left
          (by rw [List.length_append, htake, hcm]; omega)]
        rw [List.getElem?_append_left (by rw [htake]; omega)]
        exact List.getElem?_take_of_lt hk
      · rcases Nat.lt_or_ge k (i + 1) with hk2 | hk2
        · right
          have hk' : k - (i + 1 - ifs.length) < ifs.length := by omega
          obtain ⟨id, c, t, hA, _, hC⟩ := hchain (k - (i + 1 - ifs.length)) hk'
          have hpos : i + 1 - ifs.length + (k - (i + 1 - ifs.length)) = k := by omega
          rw [hpos] at hC
          obtain ⟨e2, hE⟩ := chainMutations_get ifs (k - (i + 1 - ifs.length)) id c t hA
          refine ⟨id, c, t, e2, hC, ?_⟩
          rw [List.getElem?_append_left
            (by rw [List.length_append, htake, hcm]; omega)]
          rw [List.getElem?_append_right (by rw [htake]; omega)]
          rw [htake]
          exact hE
        · left
          rw [List.getElem?_append_right
            (by rw [List.length_append, htake, hcm]; omega)]
          rw [List.length_append, htake, hcm]
          rw [List.getElem?_drop]
          congr 1
          omega

/-- C7 counterexample: the replacement value recorded for the literal
example block is a fresh compound around the edited body, but its child
statement is the original chain head (node id 1), which is still a child
of the original block — the replacement is not a detached copy. -/
theorem reach_ledger_shares_nodes_cex :
    visitCompoundStmt pW 99 (Stmt.comp 0 c4block) = some (Stmt.comp 99 [c4fused]) ∧
    topId c4fused = 1 ∧ c4block.map topId = [1, 2, 3] :=
  ⟨rfl, rfl, rfl⟩

/-- C7 as amended: every child of the recorded replacement body is (the
in-place mutation of) a node of the original block: its root id occurs
among the original block's statement ids, so the replacement shares its
child nodes with the tree still rooted at the original compound instead of
being fully detached. -/
theorem reach_ledger_value_children_from_original (p : ZExpr → Bool) (body nb : List Stmt)
    (h : visitCompoundBody p body = some nb) :
    ∀ s ∈ nb, topId s ∈ body.map topId := by
  obtain ⟨i, ifs, conds, hscan, hout, hnb⟩ := visitCompoundBody_eq p body nb h
  obtain ⟨hlen, h3, hle, hchain, hexcl, hor⟩ := hout
  subst hnb
  intro s hs
  rcases List.mem_append.mp hs with hs1 | hs2
  · rcases List.mem_append.mp hs1 with hsA | hsB
    · exact List.mem_map_of_mem topId (List.take_subset _ _ hsA)
    · have hsf : s = fuseChain ifs := by simpa using hsB
      subst hsf
      obtain ⟨id, c, t, hA, _, hC⟩ := hchain 0 (by omega)
      have hmem : Stmt.ifStmt id c t none ∈ body :=
        List.mem_iff_getElem?.mpr ⟨i + 1 - ifs.length, hC⟩
      cases ifs with
      | nil => simp at h3
      | cons a l1 =>
        rw [List.getElem?_cons_zero] at hA
        obtain rfl := Option.some.inj hA
        cases l1 with
        | nil => simp at h3
        | cons b l2 =>
          rw [show fuseChain (Stmt.ifStmt id c t none :: b :: l2) =
            Stmt.ifStmt id c t (some (fuseChain (b :: l2))) from rfl]
          exact List.mem_map.mpr ⟨Stmt.ifStmt id c t none, hmem, rfl⟩
  · exact List.mem_map_of_mem topId (List.drop_subset _ _ hs2)

/-- C7 amended witness: on the literal example block the single child of
the replacement body carries a node id of the original block. -/
theorem reach_ledger_value_children_from_original_w :
    visitCompoundBody pW c4block = some [c4fused] ∧
    (∀ s ∈ [c4fused], topId s ∈ c4block.map topId) :=
  ⟨rfl, reach_ledger_value_children_from_original pW c4block [c4fused] rfl⟩

/-- C8 counterexample: a block holding two complete chains back to back.
One invocation fuses only the first chain — the loop stops at the first
fusion — and the three statements of the second, equally eligible chain
survive unfused in the recorded replacement. -/
theorem reach_single_fusion_per_visit_cex :
    visitCompoundBody pW twoChain = some partialTwo ∧
    twoChain.map hasElse = [false, false, false, false, false, false] ∧
    partialTwo.map hasElse = [true, false, false, false] ∧
    partialTwo.length = 4 :=
  ⟨rfl, rfl, rfl, rfl⟩

/-- C8 as amended: one invocation records at most one fusion per block
(the scan stops at the first complete chain); a further invocation — as
the fixed-point driver performs — fuses the remaining chain; and nested
blocks are visited recursively by the traversal, contributing their own
substitutions. -/
theorem reach_refusion_on_reinvocation :
    visitCompoundBody pW twoChain = some partialTwo ∧
    visitCompoundBody pW partialTwo = some [c4fused, c4fusedB] ∧
    collectSubsts pW (Stmt.comp 0 [Stmt.comp 20 c4block]) =
      [(Stmt.comp 20 c4block, [c4fused])] :=
  ⟨rfl, rfl, rfl⟩

/-- C9: when a record declaration has no entry in the declaration-to-type
map, the field renamer hits the CHECK and the run is fatal — it does not
skip the node or continue with partial information. -/
theorem renamer_missing_type_info_fatal (decls : Nat → Option Nat)
    (types : Nat → Option (List String)) (declId : Nat) (fields : List String)
    (h : decls declId = none) :
    visitRecordDecl decls types declId fields = RenResult.fatal := by
  unfold visitRecordDecl
  rw [h]

/-- C9 witness: an empty declaration-to-type map makes the renamer fatal
on any record. -/
theorem renamer_missing_type_info_fatal_w :
    visitRecordDecl (fun _ => none) (fun _ => some []) 0 [] = RenResult.fatal :=
  renamer_missing_type_info_fatal (fun _ => none) (fun _ => some []) 0 [] rfl

/-- C10: for a record with a matching debug-info composite type, the
renaming loop walks all declared fields indexing the debug-info element
list in lockstep with no bounds guard: when the debug-info list is shorter
the read runs out of bounds, and under the precondition that it is at
least as long, every field k is renamed from debug-info element k (with
the seen-name disambiguation suffix). -/
theorem renamer_parallel_index_bounds (decls : Nat → Option Nat)
    (types : Nat → Option (List String)) (declId ty : Nat) (di fields : List String)
    (hd : decls declId = some ty) (ht : types ty = some di) :
    (di.length < fields.length →
      visitRecordDecl decls types declId fields = RenResult.outOfBounds) ∧
    (fields.length ≤ di.length →
      ∃ r, visitRecordDecl decls types declId fields = RenResult.ok r ∧
        r.length = fields.length ∧
        ∀ k, k < fields.length → ∃ f d, fields[k]? = some f ∧ di[k]? = some d ∧
          r[k]? = some (if (di.take k).contains d then d ++ "_" ++ f else d)) := by
  have hspec := renameFields_spec fields di [] [] (fun x => rfl)
  constructor
  · intro hlt
    simp only [visitRecordDecl, hd, ht]
    rw [hspec.1 hlt]
  · intro hle
    obtain ⟨r, hr, hrlen, hrk⟩ := hspec.2 hle
    refine ⟨r, ?_, hrlen, ?_⟩
    · simp only [visitRecordDecl, hd, ht]
      rw [hr]
    · intro k hk
      obtain ⟨f, d, h1, h2, h3⟩ := hrk k hk
      rw [show ([] : List String) ++ di.take k = di.take k from List.nil_append _] at h3
      exact ⟨f, d, h1, h2, h3⟩

/-- C10 witness: two fields against three debug-info elements, with a
duplicated debug-info name exercising the suffix branch. -/
theorem renamer_parallel_index_bounds_w :
    ((["x", "x", "y"] : List String).length < (["a", "b"] : List String).length →
      visitRecordDecl (fun _ => some 0) (fun _ => some ["x", "x", "y"]) 7 ["a", "b"] =
        RenResult.outOfBounds) ∧
    ((["a", "b"] : List String).length ≤ (["x", "x", "y"] : List String).length →
      ∃ r, visitRecordDecl (fun _ => some 0) (fun _ => some ["x", "x", "y"]) 7 ["a", "b"] =
          RenResult.ok r ∧
        r.length = (["a", "b"] : List String).length ∧
        ∀ k, k < (["a", "b"] : List String).length → ∃ f d,
          (["a", "b"] : List String)[k]? = some f ∧
          (["x", "x", "y"] : List String)[k]? = some d ∧
          r[k]? = some (if ((["x", "x", "y"] : List String).take k).contains d
            then d ++ "_" ++ f else d)) :=
  renamer_parallel_index_bounds (fun _ => some 0) (fun _ => some ["x", "x", "y"]) 7 0
    ["x", "x", "y"] ["a", "b"] rfl rfl
